import Mathlib

/-!
Shallow embedding of the stock snapshot logger (src/stock_logger.py).

Python floats are modelled as exact rationals; the type `Val` adds the
NA states (None and float NaN) that the script distinguishes through
pd.isna and Python truthiness.  The persisted CSV ledger is modelled as
a list of text rows, and append_unique_csv mirrors the merge the script
performs on the file: pandas drop_duplicates on the key columns with
keep="last", followed by the sort on the parsed date and the ticker,
modelled as a stable sort by that key.
-/

namespace StockLogger

/-- A Python value as the script uses them: None, a float NaN, or a
finite float modelled as an exact rational. -/
inductive Val where
  | none : Val
  | nan : Val
  | num : ℚ → Val
deriving DecidableEq

/-- pd.isna: true exactly on None and NaN. -/
def isna : Val → Bool
  | .none => true
  | .nan => true
  | .num _ => false

/-- Python truthiness: None and 0.0 are falsy; NaN and every nonzero float are truthy. -/
def truthy : Val → Bool
  | .none => false
  | .nan => true
  | .num q => decide (q ≠ 0)

/-- Numeric projection; only consulted on `num` values. -/
def toQ : Val → ℚ
  | .num q => q
  | _ => 0

/-- Float comparison `v > x`; comparisons against NaN are false. -/
def vgt (v : Val) (x : ℚ) : Bool :=
  match v with
  | .num q => decide (x < q)
  | _ => false

/-- Float comparison `v < x`; comparisons against NaN are false. -/
def vlt (v : Val) (x : ℚ) : Bool :=
  match v with
  | .num q => decide (q < x)
  | _ => false

/-- Float comparison `v >= x`; comparisons against NaN are false. -/
def vge (v : Val) (x : ℚ) : Bool :=
  match v with
  | .num q => decide (x ≤ q)
  | _ => false

/-- Float comparison `v <= x`; comparisons against NaN are false. -/
def vle (v : Val) (x : ℚ) : Bool :=
  match v with
  | .num q => decide (q ≤ x)
  | _ => false

/-- Float multiplication by a constant; NA operands give NaN. -/
def vmul (v : Val) (x : ℚ) : Val :=
  match v with
  | .num q => .num (q * x)
  | _ => .nan

/-- Float comparison `v >= w`; comparisons involving NA are false. -/
def vgeV (v w : Val) : Bool :=
  match v, w with
  | .num a, .num b => decide (b ≤ a)
  | _, _ => false

/-- Float comparison `v <= w`; comparisons involving NA are false. -/
def vleV (v w : Val) : Bool :=
  match v, w with
  | .num a, .num b => decide (a ≤ b)
  | _, _ => false

/-- Python int(n): truncation toward zero. -/
def truncInt (q : ℚ) : ℤ := if q < 0 then ⌈q⌉ else ⌊q⌋

/-- Round to the nearest integer, halves to even: the rounding used when
Python formats a float with two decimals. -/
def rhe (a : ℚ) : ℤ :=
  let f : ℤ := ⌊a⌋
  if (1 : ℚ) / 2 < a - f then f + 1
  else if a - f < (1 : ℚ) / 2 then f
  else if f % 2 = 0 then f else f + 1

/-- Two-digit zero-padded decimal print of a natural number below 100. -/
def pad2 (n : ℕ) : String := if n < 10 then "0" ++ toString n else toString n

/-- Python fixed-point formatting with two decimals of an exact rational. -/
def fmt2 (q : ℚ) : String :=
  let m : ℤ := rhe (|q| * 100)
  (if q < 0 then "-" else "") ++ toString (m / 100) ++ "." ++ pad2 (m % 100).toNat

/-- fmt_volume from the script. -/
def fmt_volume (n : Val) : String :=
  match n with
  | .none => ""
  | .nan => ""
  | .num q =>
    if 1000000000 ≤ q then fmt2 (q / 1000000000) ++ "b"
    else if 1000000 ≤ q then fmt2 (q / 1000000) ++ "m"
    else if 1000 ≤ q then fmt2 (q / 1000) ++ "k"
    else toString (truncInt q)

/-- pct_change from the script.  The first test models
`prev_close in (None, 0)`; the others model the pd.isna guards.  The
final catch-all branch is unreachable once the guards have passed. -/
def pct_change (close prev_close : Val) : Val :=
  if (prev_close == Val.none || prev_close == Val.num 0) || isna prev_close || isna close then
    .nan
  else
    match close, prev_close with
    | .num c, .num p => .num ((c - p) / p * 100)
    | _, _ => .nan

/-- trend_label from the script. -/
def trend_label (pct : Val) : String :=
  if isna pct then "" else if vgt pct 0 then "increase" else "decrease"

/-- build_trend_note from the script.  The volume ratio constants 1.2 and
0.8 are modelled as the exact rationals 6/5 and 4/5. -/
def build_trend_note (o h l c prev_c vol prev_vol : Val) : String :=
  if [o, h, l, c, prev_c].any isna then ""
  else
    let day_range : ℚ := if truthy prev_c then (toQ h - toQ l) / toQ prev_c * 100 else 0
    let chg : Val := pct_change c prev_c
    let volatility := if 5 ≤ day_range then "high" else if 2 ≤ day_range then "moderate" else "low"
    let direction := if vgt chg 0 then "rebounded" else if vlt chg 0 then "sold off" else "closed flat"
    let vol_phrase :=
      if truthy prev_vol && vgt prev_vol 0 && !isna prev_vol && !isna vol then
        if vgeV vol (vmul prev_vol (6 / 5)) then " on higher volume"
        else if vleV vol (vmul prev_vol (4 / 5)) then " on lighter volume"
        else " on steady volume"
      else ""
    let bias := if vge chg 2 then "bullish" else if vle chg (-2) then "bearish" else "neutral"
    direction ++ vol_phrase ++ " with " ++ volatility ++
      " intraday volatility; short-term bias is " ++ bias ++ "."

/-- The "% Change (Day)" cell of a row: two decimals and a percent sign,
or empty when the percent change is NA. -/
def pct_cell (pchg : Val) : String :=
  match pchg with
  | .num q => fmt2 q ++ "%"
  | _ => ""

/-- One persisted CSV row.  The file stores every field as text; only the
two key columns take part in the merge logic, the remaining cells are kept
as an opaque list of strings. -/
structure Row where
  date : String
  ticker : String
  rest : List String
deriving DecidableEq

/-- The composite key used by the merge: the (Date, Ticker) columns. -/
def keyOf (r : Row) : String × String := (r.date, r.ticker)

/-- pandas drop_duplicates(subset=["Date", "Ticker"], keep="last"): a row
is kept iff no later row carries the same key; kept rows stay in their
original relative order. -/
def dropDupKeepLast : List Row → List Row
  | [] => []
  | r :: rest =>
    if rest.any (fun s => decide (keyOf s = keyOf r)) then dropDupKeepLast rest
    else r :: dropDupKeepLast rest

/-- Split a character list at every slash, like str.split("/"). -/
def splitSlash : List Char → List (List Char)
  | [] => [[]]
  | c :: cs =>
    let r := splitSlash cs
    if c = '/' then [] :: r else (c :: r.headD []) :: r.tail

/-- Decimal digit test on a character via its code point. -/
def isDigitC (c : Char) : Bool := 48 ≤ c.toNat && c.toNat ≤ 57

/-- Nonempty and all characters decimal digits. -/
def allDigits (l : List Char) : Bool := decide (l ≠ []) && l.all isDigitC

/-- Decimal digits of a character list read as a natural number. -/
def strToNat (l : List Char) : ℕ := l.foldl (fun n c => n * 10 + (c.toNat - 48)) 0

/-- Gregorian leap year, as datetime uses. -/
def isLeap (y : ℕ) : Bool := (y % 4 == 0 && y % 100 != 0) || y % 400 == 0

/-- Length of a month, as datetime validates. -/
def daysInMonth (y m : ℕ) : ℕ :=
  if m = 2 then (if isLeap y then 29 else 28)
  else if m = 4 ∨ m = 6 ∨ m = 9 ∨ m = 11 then 30 else 31

/-- datetime.strptime(d, "%d/%m/%Y") as a total function: some date on
success, none when strptime raises ValueError.  The date is encoded as
y * 10000 + m * 100 + d, an order-isomorphic code of (year, month, day)
on the valid range (m at most 12, d at most 31).  strptime accepts one or
two digits for day and month, exactly four digits for the year, and
validates the calendar date. -/
def parse_date? (s : String) : Option ℕ :=
  match splitSlash s.data with
  | [ds, ms, ys] =>
    if allDigits ds = true ∧ ds.length ≤ 2 ∧ allDigits ms = true ∧ ms.length ≤ 2 ∧
        allDigits ys = true ∧ ys.length = 4 then
      if 1 ≤ strToNat ys ∧ 1 ≤ strToNat ms ∧ strToNat ms ≤ 12 ∧ 1 ≤ strToNat ds ∧
          strToNat ds ≤ daysInMonth (strToNat ys) (strToNat ms) then
        some (strToNat ys * 10000 + strToNat ms * 100 + strToNat ds)
      else none
    else none
  | _ => none

/-- datetime.min (1 January of year 1) in the same encoding. -/
def datetime_min : ℕ := 10101

/-- parse_date from the script: unparsable dates fall back to datetime.min. -/
def parse_date (s : String) : ℕ := (parse_date? s).getD datetime_min

/-- Code-point lexicographic order on character lists: how pandas compares
the Ticker strings. -/
def charListLe : List Char → List Char → Bool
  | [], _ => true
  | _ :: _, [] => false
  | a :: as, b :: bs =>
    if a.toNat < b.toNat then true
    else if b.toNat < a.toNat then false
    else charListLe as bs

/-- Ticker comparison. -/
def tickerLe (s t : String) : Bool := charListLe s.data t.data

/-- The sort key comparison behind sort_values(["__date", "Ticker"]):
parsed date ascending, then ticker ascending. -/
def rowLe (r s : Row) : Bool :=
  decide (parse_date r.date < parse_date s.date) ||
    (decide (parse_date r.date = parse_date s.date) && tickerLe r.ticker s.ticker)

/-- Insert an element into a list, passing every element strictly below it
and stopping before the first tie or larger element; folding this over a
list yields a stable sort. -/
def insertB {α : Type} (le : α → α → Bool) (a : α) : List α → List α
  | [] => [a]
  | b :: l => if le b a && !le a b then b :: insertB le a l else a :: b :: l

/-- Stable insertion sort by the comparison le. -/
def isortB {α : Type} (le : α → α → Bool) : List α → List α
  | [] => []
  | a :: l => insertB le a (isortB le l)

/-- Stable two-list merge (ties favour the left list); used only to reason
about isortB. -/
def mergeB {α : Type} (le : α → α → Bool) : List α → List α → List α
  | [], ys => ys
  | x :: xs, [] => x :: xs
  | x :: xs, y :: ys =>
    if le x y then x :: mergeB le xs (y :: ys) else y :: mergeB le (x :: xs) ys
termination_by xs ys => xs.length + ys.length

/-- pandas sort_values(["__date", "Ticker"]), modelled as a stable sort by
that key. -/
def sort_values (l : List Row) : List Row := isortB rowLe l

/-- append_unique_csv from the script.  old = some rows models an existing
ledger file, none a missing one; the returned list is the full rewritten
ledger.  When the file exists the concatenation of old and new rows is
deduplicated on (Date, Ticker) keeping the last occurrence; when it does
not, the new rows are written as they are.  Either way the result is
sorted by parsed date then ticker. -/
def append_unique_csv (old : Option (List Row)) (new_rows : List Row) : List Row :=
  match old with
  | some o => sort_values (dropDupKeepLast (o ++ new_rows))
  | none => sort_values new_rows

/-- Outcome of the external Google Sheets mirror step, as seen by main:
the configuration may be absent (the function logs and returns), the
append may succeed, or the gspread machinery may raise. -/
inductive MirrorBehavior where
  | notConfigured : MirrorBehavior
  | succeeds : MirrorBehavior
  | raises : MirrorBehavior
deriving DecidableEq

/-- append_to_google_sheet from the script, reduced to its control flow:
returns true iff the call raises an uncaught exception.  Missing
configuration prints and returns normally; there is no try/except around
the gspread calls, so a raising sink propagates. -/
def append_to_google_sheet_raises (mb : MirrorBehavior) : Bool :=
  match mb with
  | .notConfigured => false
  | .succeeds => false
  | .raises => true

/-- Observable outcome of the tail of main: the persisted ledger (none
means the file was left untouched) and whether the run aborted with an
uncaught exception. -/
structure RunResult where
  ledger : Option (List Row)
  aborted : Bool
deriving DecidableEq

/-- The tail of main (from `if not rows:` on): an empty batch exits before
any write; otherwise the ledger is merged and written first, and the
mirror step runs afterwards with no exception handling around it. -/
def main_tail (old : Option (List Row)) (batch : List Row) (mb : MirrorBehavior) : RunResult :=
  if batch.isEmpty then { ledger := old, aborted := false }
  else
    { ledger := some (append_unique_csv old batch),
      aborted := append_to_google_sheet_raises mb }

/-- The last row of a list carrying the key k, if any: the row that
drop_duplicates(keep="last") retains for that key. -/
def lastWithKey (k : String × String) (l : List Row) : Option Row :=
  (l.filter (fun r => decide (keyOf r = k))).getLast?

/-- Sample rows used in concrete counterexamples and witnesses. -/
def rowA : Row := ⟨"01/01/2024", "AAA", ["a"]⟩

/-- A second row with the same (Date, Ticker) key as rowA but different content. -/
def rowA2 : Row := ⟨"01/01/2024", "AAA", ["b"]⟩

/-- A row with a distinct key. -/
def rowB : Row := ⟨"02/01/2024", "BBB", ["c"]⟩

/-! ### Properties of the stable insertion sort -/

variable {α : Type}

theorem insertB_perm (le : α → α → Bool) (a : α) (l : List α) :
    List.Perm (insertB le a l) (a :: l) := by
  induction l with
  | nil => exact List.Perm.refl _
  | cons b t ih =>
    by_cases h : (le b a && !le a b) = true
    · simp only [insertB, h, if_true]
      exact (ih.cons b).trans (List.Perm.swap a b t)
    · simp [insertB, h]

theorem isortB_perm (le : α → α → Bool) (l : List α) : List.Perm (isortB le l) l := by
  induction l with
  | nil => exact List.Perm.refl _
  | cons a t ih => exact (insertB_perm le a (isortB le t)).trans (ih.cons a)

theorem mem_insertB (le : α → α → Bool) (a x : α) (l : List α) :
    x ∈ insertB le a l ↔ x = a ∨ x ∈ l := by
  rw [(insertB_perm le a l).mem_iff, List.mem_cons]

theorem insertB_sorted (le : α → α → Bool)
    (htot : ∀ a b, le a b = true ∨ le b a = true)
    (htr : ∀ a b c, le a b = true → le b c = true → le a c = true)
    (a : α) (l : List α) (hs : l.Pairwise (fun x y => le x y = true)) :
    (insertB le a l).Pairwise (fun x y => le x y = true) := by
  induction l with
  | nil => simp [insertB]
  | cons b t ih =>
    rcases List.pairwise_cons.mp hs with ⟨hb, ht⟩
    by_cases h : (le b a && !le a b) = true
    · have hba : le b a = true := by
        have := h
        simp only [Bool.and_eq_true] at this
        exact this.1
      simp only [insertB, h, if_true]
      refine List.pairwise_cons.mpr ⟨?_, ih ht⟩
      intro x hx
      rcases (mem_insertB le a x t).mp hx with rfl | hx
      · exact hba
      · exact hb x hx
    · have himp : le b a = true → le a b = true := by
        intro hba
        by_contra hnab
        exact h (by simp [hba, Bool.not_eq_true _ ▸ hnab, (by simpa using hnab : le a b = false)])
      have hab : le a b = true := by
        rcases htot a b with hab | hba2
        · exact hab
        · exact himp hba2
      simp only [insertB, h, if_false]
      refine List.pairwise_cons.mpr ⟨?_, hs⟩
      intro x hx
      rcases List.mem_cons.mp hx with rfl | hx
      · exact hab
      · exact htr a b x hab (hb x hx)

theorem isortB_sorted (le : α → α → Bool)
    (htot : ∀ a b, le a b = true ∨ le b a = true)
    (htr : ∀ a b c, le a b = true → le b c = true → le a c = true)
    (l : List α) : (isortB le l).Pairwise (fun x y => le x y = true) := by
  induction l with
  | nil => simp [isortB]
  | cons a t ih => exact insertB_sorted le htot htr a (isortB le t) ih

theorem insertB_cons_of_head (le : α → α → Bool) (a b : α) (l : List α)
    (h : (le b a && !le a b) = false) : insertB le a (b :: l) = a :: b :: l := by
  simp [insertB, h]

theorem insertB_of_forall (le : α → α → Bool) (a : α) (l : List α)
    (h : ∀ x ∈ l, (le x a && !le a x) = false) : insertB le a l = a :: l := by
  cases l with
  | nil => rfl
  | cons b t => exact insertB_cons_of_head le a b t (h b (List.mem_cons_self b t))

theorem isortB_of_sorted (le : α → α → Bool) (l : List α)
    (hs : l.Pairwise (fun x y => le x y = true)) : isortB le l = l := by
  induction l with
  | nil => rfl
  | cons a t ih =>
    rcases List.pairwise_cons.mp hs with ⟨ha, ht⟩
    rw [isortB, ih ht]
    cases t with
    | nil => rfl
    | cons b t2 =>
      have hab : le a b = true := ha b (List.mem_cons_self b t2)
      exact insertB_cons_of_head le a b t2 (by simp [hab])

theorem mergeB_nil_right (le : α → α → Bool) (l : List α) : mergeB le l [] = l := by
  cases l <;> simp [mergeB]

theorem mergeB_singleton_left (le : α → α → Bool)
    (htot : ∀ a b, le a b = true ∨ le b a = true)
    (a : α) (l : List α) : mergeB le [a] l = insertB le a l := by
  induction l with
  | nil => simp [mergeB, insertB]
  | cons y ys ih =>
    by_cases hay : le a y = true
    · have hten : (le y a && !le a y) = false := by simp [hay]
      simp [mergeB, insertB, hay, hten]
    · have hya : le y a = true := (htot a y).resolve_left hay
      have hnay : le a y = false := by simpa using hay
      simp [mergeB, insertB, hya, hnay, ih]

theorem mergeB_cons_cons_pos (le : α → α → Bool) (x y : α) (xs ys : List α)
    (h : le x y = true) :
    mergeB le (x :: xs) (y :: ys) = x :: mergeB le xs (y :: ys) := by
  simp [mergeB, h]

theorem mergeB_cons_cons_neg (le : α → α → Bool) (x y : α) (xs ys : List α)
    (h : le x y = false) :
    mergeB le (x :: xs) (y :: ys) = y :: mergeB le (x :: xs) ys := by
  simp [mergeB, h]

theorem insertB_cons_pos (le : α → α → Bool) (a b : α) (l : List α)
    (h : (le b a && !le a b) = true) : insertB le a (b :: l) = b :: insertB le a l := by
  simp [insertB, h]

theorem insert_mergeB (le : α → α → Bool)
    (htot : ∀ a b, le a b = true ∨ le b a = true)
    (htr : ∀ a b c, le a b = true → le b c = true → le a c = true)
    (a : α) :
    ∀ (n : ℕ) (X Y : List α), X.length + Y.length ≤ n →
      insertB le a (mergeB le X Y) = mergeB le (insertB le a X) Y := by
  intro n
  induction n with
  | zero =>
    intro X Y hlen
    have hX : X = [] := List.length_eq_zero.mp (by omega)
    have hY : Y = [] := List.length_eq_zero.mp (by omega)
    subst hX; subst hY
    simp [mergeB, insertB]
  | succ n ih =>
    intro X Y hlen
    cases X with
    | nil =>
      have h1 : insertB le a ([] : List α) = [a] := by simp [insertB]
      rw [h1]
      have h2 : mergeB le ([] : List α) Y = Y := by simp [mergeB]
      rw [h2, mergeB_singleton_left le htot]
    | cons x xs =>
      cases Y with
      | nil => rw [mergeB_nil_right, mergeB_nil_right]
      | cons y ys =>
        have hlen1 : xs.length + (y :: ys).length ≤ n := by
          simp only [List.length_cons] at hlen ⊢; omega
        have hlen2 : (x :: xs).length + ys.length ≤ n := by
          simp only [List.length_cons] at hlen ⊢; omega
        by_cases hxy : le x y = true
        · by_cases hxa : (le x a && !le a x) = true
          · rw [mergeB_cons_cons_pos le x y xs ys hxy,
              insertB_cons_pos le a x (mergeB le xs (y :: ys)) hxa,
              ih xs (y :: ys) hlen1,
              insertB_cons_pos le a x xs hxa,
              mergeB_cons_cons_pos le x y (insertB le a xs) ys hxy]
          · have hxaf : (le x a && !le a x) = false := by simpa using hxa
            have hax : le a x = true := by
              have himp : le x a = true → le a x = true := by
                intro hq
                by_contra hn
                have : le a x = false := by simpa using hn
                simp [hq, this] at hxaf
              rcases htot a x with h1 | h1
              · exact h1
              · exact himp h1
            have hay : le a y = true := htr a x y hax hxy
            rw [mergeB_cons_cons_pos le x y xs ys hxy,
              insertB_cons_of_head le a x (mergeB le xs (y :: ys)) hxaf,
              insertB_cons_of_head le a x xs hxaf,
              mergeB_cons_cons_pos le a y (x :: xs) ys hay,
              mergeB_cons_cons_pos le x y xs ys hxy]
        · have hnxy : le x y = false := by simpa using hxy
          have hyx : le y x = true := (htot x y).resolve_left (by simp [hnxy])
          by_cases hxa : (le x a && !le a x) = true
          · have hxa1 : le x a = true := by
              have := hxa; simp only [Bool.and_eq_true] at this; exact this.1
            have hxa2 : le a x = false := by
              have := hxa; simp only [Bool.and_eq_true, Bool.not_eq_true'] at this
              exact this.2
            have hya : le y a = true := htr y x a hyx hxa1
            have hnay : le a y = false := by
              by_contra hn
              have hay : le a y = true := by simpa using hn
              have : le a x = true := htr a y x hay hyx
              simp [this] at hxa2
            have htst : (le y a && !le a y) = true := by simp [hya, hnay]
            rw [mergeB_cons_cons_neg le x y xs ys hnxy,
              insertB_cons_pos le a y (mergeB le (x :: xs) ys) htst,
              ih (x :: xs) ys hlen2,
              insertB_cons_pos le a x xs hxa,
              mergeB_cons_cons_neg le x y (insertB le a xs) ys hnxy]
          · have hxaf : (le x a && !le a x) = false := by simpa using hxa
            have hax : le a x = true := by
              have himp : le x a = true → le a x = true := by
                intro hq
                by_contra hn
                have : le a x = false := by simpa using hn
                simp [hq, this] at hxaf
              rcases htot a x with h1 | h1
              · exact h1
              · exact himp h1
            rw [insertB_cons_of_head le a x xs hxaf]
            by_cases hay : le a y = true
            · have htst : (le y a && !le a y) = false := by simp [hay]
              rw [mergeB_cons_cons_neg le x y xs ys hnxy,
                insertB_cons_of_head le a y (mergeB le (x :: xs) ys) htst,
                mergeB_cons_cons_pos le a y (x :: xs) ys hay,
                mergeB_cons_cons_neg le x y xs ys hnxy]
            · have hnay : le a y = false := by simpa using hay
              have hya : le y a = true := (htot a y).resolve_left hay
              have htst : (le y a && !le a y) = true := by simp [hya, hnay]
              rw [mergeB_cons_cons_neg le x y xs ys hnxy,
                insertB_cons_pos le a y (mergeB le (x :: xs) ys) htst,
                ih (x :: xs) ys hlen2,
                insertB_cons_of_head le a x xs hxaf,
                mergeB_cons_cons_neg le a y (x :: xs) ys hnay]

theorem isortB_append (le : α → α → Bool)
    (htot : ∀ a b, le a b = true ∨ le b a = true)
    (htr : ∀ a b c, le a b = true → le b c = true → le a c = true)
    (A C : List α) :
    isortB le (A ++ C) = mergeB le (isortB le A) (isortB le C) := by
  induction A with
  | nil => simp [isortB, mergeB]
  | cons a A ih =>
    have h1 : isortB le ((a :: A) ++ C) = insertB le a (isortB le (A ++ C)) := rfl
    have h2 : isortB le (a :: A) = insertB le a (isortB le A) := rfl
    rw [h1, h2, ih,
      insert_mergeB le htot htr a ((isortB le A).length + (isortB le C).length)
        (isortB le A) (isortB le C) le_rfl]

theorem isortB_idem (le : α → α → Bool)
    (htot : ∀ a b, le a b = true ∨ le b a = true)
    (htr : ∀ a b c, le a b = true → le b c = true → le a c = true)
    (l : List α) : isortB le (isortB le l) = isortB le l :=
  isortB_of_sorted le (isortB le l) (isortB_sorted le htot htr l)

theorem isortB_isortB_append (le : α → α → Bool)
    (htot : ∀ a b, le a b = true ∨ le b a = true)
    (htr : ∀ a b c, le a b = true → le b c = true → le a c = true)
    (A C : List α) :
    isortB le (isortB le A ++ C) = isortB le (A ++ C) := by
  rw [isortB_append le htot htr, isortB_idem le htot htr, ← isortB_append le htot htr]

theorem filter_insertB (le : α → α → Bool)
    (htr : ∀ a b c, le a b = true → le b c = true → le a c = true)
    (p : α → Bool) (a : α) (l : List α)
    (hs : l.Pairwise (fun x y => le x y = true)) :
    (insertB le a l).filter p =
      if p a = true then insertB le a (l.filter p) else l.filter p := by
  induction l with
  | nil => cases hpa : p a <;> simp [insertB, List.filter, hpa]
  | cons b t ih =>
    rcases List.pairwise_cons.mp hs with ⟨hb, ht⟩
    by_cases h : (le b a && !le a b) = true
    · rw [insertB_cons_pos le a b t h]
      cases hpb : p b with
      | true =>
        rw [List.filter_cons_of_pos hpb, List.filter_cons_of_pos hpb, ih ht]
        cases hpa : p a with
        | true =>
          rw [if_pos rfl, if_pos rfl, insertB_cons_pos le a b (t.filter p) h]
        | false => simp
      | false =>
        rw [List.filter_cons_of_neg (by simp [hpb]), List.filter_cons_of_neg (by simp [hpb]),
          ih ht]
    · have hf : (le b a && !le a b) = false := by simpa using h
      rw [insertB_cons_of_head le a b t hf]
      cases hpa : p a with
      | false =>
        rw [List.filter_cons_of_neg (by simp [hpa]), if_neg (by simp [hpa])]
      | true =>
        rw [List.filter_cons_of_pos hpa, if_pos rfl]
        have hall : ∀ x ∈ (b :: t).filter p, (le x a && !le a x) = false := by
          intro x hx
          have hxm : x ∈ b :: t := List.mem_of_mem_filter hx
          rcases List.mem_cons.mp hxm with rfl | hxt
          · exact hf
          · by_contra hc
            have hc' : (le x a && !le a x) = true := by simpa using hc
            have hc1 : le x a = true := by
              have := hc'; simp only [Bool.and_eq_true] at this; exact this.1
            have hc2 : le a x = false := by
              have := hc'; simp only [Bool.and_eq_true, Bool.not_eq_true'] at this
              exact this.2
            have hbx : le b x = true := hb x hxt
            rcases Bool.and_eq_false_iff.mp hf with hba | hnab
            · have : le b a = true := htr b x a hbx hc1
              simp [this] at hba
            · have hab : le a b = true := by simpa using hnab
              have : le a x = true := htr a b x hab hbx
              simp [this] at hc2
        rw [insertB_of_forall le a ((b :: t).filter p) hall]

theorem filter_isortB (le : α → α → Bool)
    (htot : ∀ a b, le a b = true ∨ le b a = true)
    (htr : ∀ a b c, le a b = true → le b c = true → le a c = true)
    (p : α → Bool) (l : List α) :
    (isortB le l).filter p = isortB le (l.filter p) := by
  induction l with
  | nil => simp [isortB]
  | cons a t ih =>
    have h1 : isortB le (a :: t) = insertB le a (isortB le t) := rfl
    rw [h1, filter_insertB le htr p a (isortB le t) (isortB_sorted le htot htr t), ih]
    cases hpa : p a with
    | true =>
      rw [if_pos rfl, List.filter_cons_of_pos hpa]
      rfl
    | false =>
      rw [if_neg (by simp), List.filter_cons_of_neg (by simp [hpa])]

/-! ### Properties of the keep-last deduplication -/

theorem mem_dropDupKeepLast (l : List Row) (r : Row) (h : r ∈ dropDupKeepLast l) : r ∈ l := by
  induction l with
  | nil => simp [dropDupKeepLast] at h
  | cons x xs ih =>
    by_cases hx : xs.any (fun s => decide (keyOf s = keyOf x)) = true
    · rw [dropDupKeepLast, if_pos hx] at h
      exact List.mem_cons_of_mem x (ih h)
    · rw [dropDupKeepLast, if_neg hx] at h
      rcases List.mem_cons.mp h with rfl | h2
      · exact List.mem_cons_self r xs
      · exact List.mem_cons_of_mem x (ih h2)

theorem keys_nodup_dropDupKeepLast (l : List Row) :
    ((dropDupKeepLast l).map keyOf).Nodup := by
  induction l with
  | nil => simp [dropDupKeepLast]
  | cons x xs ih =>
    by_cases hx : xs.any (fun s => decide (keyOf s = keyOf x)) = true
    · rw [dropDupKeepLast, if_pos hx]
      exact ih
    · have hall : ∀ s ∈ xs, keyOf s ≠ keyOf x := by simpa using hx
      rw [dropDupKeepLast, if_neg hx, List.map_cons]
      refine List.nodup_cons.mpr ⟨?_, ih⟩
      intro hmem
      rcases List.mem_map.mp hmem with ⟨s, hs, hks⟩
      exact hall s (mem_dropDupKeepLast xs s hs) hks

theorem dropDupKeepLast_of_nodup (l : List Row) (h : (l.map keyOf).Nodup) :
    dropDupKeepLast l = l := by
  induction l with
  | nil => rfl
  | cons x xs ih =>
    rw [List.map_cons, List.nodup_cons] at h
    have hx : xs.any (fun s => decide (keyOf s = keyOf x)) = false := by
      rw [List.any_eq_false]
      intro s hs hdec
      exact h.1 (List.mem_map.mpr ⟨s, hs, by simpa using hdec⟩)
    rw [dropDupKeepLast, if_neg (by simp [hx]), ih h.2]

theorem dropDupKeepLast_append (X B : List Row) :
    dropDupKeepLast (X ++ B) =
      (dropDupKeepLast X).filter
        (fun r => !(B.any (fun s => decide (keyOf s = keyOf r)))) ++ dropDupKeepLast B := by
  induction X with
  | nil => simp [dropDupKeepLast]
  | cons x xs ih =>
    rw [List.cons_append]
    by_cases h1 : xs.any (fun s => decide (keyOf s = keyOf x)) = true
    · have hcomb : (xs ++ B).any (fun s => decide (keyOf s = keyOf x)) = true := by
        rw [List.any_append, h1, Bool.true_or]
      rw [dropDupKeepLast, if_pos hcomb, ih, dropDupKeepLast, if_pos h1]
    · have h1f : xs.any (fun s => decide (keyOf s = keyOf x)) = false := by simpa using h1
      by_cases h2 : B.any (fun s => decide (keyOf s = keyOf x)) = true
      · have hcomb : (xs ++ B).any (fun s => decide (keyOf s = keyOf x)) = true := by
          rw [List.any_append, h1f, h2, Bool.false_or]
        rw [dropDupKeepLast, if_pos hcomb, ih, dropDupKeepLast, if_neg h1,
          List.filter_cons_of_neg (by simp [h2])]
      · have h2f : B.any (fun s => decide (keyOf s = keyOf x)) = false := by simpa using h2
        have hcomb : (xs ++ B).any (fun s => decide (keyOf s = keyOf x)) = false := by
          rw [List.any_append, h1f, h2f, Bool.or_self]
        rw [dropDupKeepLast, if_neg (by simp [hcomb]), ih, dropDupKeepLast, if_neg h1,
          List.filter_cons_of_pos (by simp [h2f]), List.cons_append]

theorem dropDup_lastWithKey (l : List Row) (s : Row) (h : s ∈ dropDupKeepLast l) :
    lastWithKey (keyOf s) l = some s := by
  induction l with
  | nil => simp [dropDupKeepLast] at h
  | cons x xs ih =>
    by_cases hx : xs.any (fun r => decide (keyOf r = keyOf x)) = true
    · rw [dropDupKeepLast, if_pos hx] at h
      have htail := ih h
      by_cases hkx : keyOf x = keyOf s
      · have hne : xs.filter (fun r => decide (keyOf r = keyOf s)) ≠ [] := by
          rcases List.any_eq_true.mp hx with ⟨t, ht, hdec⟩
          have hts : keyOf t = keyOf s := by
            have : keyOf t = keyOf x := by simpa using hdec
            rw [this, hkx]
          intro hnil
          have : t ∈ xs.filter (fun r => decide (keyOf r = keyOf s)) :=
            List.mem_filter.mpr ⟨ht, by simpa using hts⟩
          simp [hnil] at this
        rw [lastWithKey, List.filter_cons_of_pos (by simpa using hkx)]
        rw [lastWithKey] at htail
        cases hflt : xs.filter (fun r => decide (keyOf r = keyOf s)) with
        | nil => exact absurd hflt hne
        | cons z zs => rw [List.getLast?_cons_cons, ← hflt, htail]
      · rw [lastWithKey, List.filter_cons_of_neg (by simpa using hkx)]
        exact htail
    · rw [dropDupKeepLast, if_neg hx] at h
      rcases List.mem_cons.mp h with rfl | h2
      · have hall : ∀ t ∈ xs, ¬keyOf t = keyOf s := by simpa using hx
        have hnone : xs.filter (fun r => decide (keyOf r = keyOf s)) = [] := by
          rw [List.filter_eq_nil_iff]
          intro t ht
          simpa using hall t ht
        rw [lastWithKey, List.filter_cons_of_pos (by simp), hnone]
        rfl
      · have hall : ∀ t ∈ xs, ¬keyOf t = keyOf x := by simpa using hx
        have hkx : keyOf x ≠ keyOf s := by
          intro hk
          have hs_xs : s ∈ xs := mem_dropDupKeepLast xs s h2
          exact hall s hs_xs hk.symm
        rw [lastWithKey, List.filter_cons_of_neg (by simpa using hkx)]
        exact ih h2

theorem lastWithKey_mem_dropDup (l : List Row) (k : String × String) (s : Row)
    (h : lastWithKey k l = some s) : s ∈ dropDupKeepLast l := by
  induction l with
  | nil => simp [lastWithKey] at h
  | cons x xs ih =>
    by_cases hkx : keyOf x = k
    · rw [lastWithKey, List.filter_cons_of_pos (by simpa using hkx)] at h
      cases hflt : xs.filter (fun r => decide (keyOf r = k)) with
      | nil =>
        rw [hflt] at h
        have hsx : s = x := by
          have : some x = some s := by simpa using h
          exact (Option.some.inj this).symm
        subst hsx
        have hxany : xs.any (fun r => decide (keyOf r = keyOf s)) = false := by
          rw [List.any_eq_false]
          intro t ht hdec
          have htk : keyOf t = k := by
            have : keyOf t = keyOf s := by simpa using hdec
            rw [this, hkx]
          have : t ∈ xs.filter (fun r => decide (keyOf r = k)) :=
            List.mem_filter.mpr ⟨ht, by simpa using htk⟩
          simp [hflt] at this
        rw [dropDupKeepLast, if_neg (by simp [hxany])]
        exact List.mem_cons_self s _
      | cons z zs =>
        rw [hflt, List.getLast?_cons_cons, ← hflt] at h
        have hs_tail : s ∈ dropDupKeepLast xs := ih h
        have hz : z ∈ xs.filter (fun r => decide (keyOf r = k)) := by
          rw [hflt]; exact List.mem_cons_self z zs
        rcases List.mem_filter.mp hz with ⟨hz_xs, hz_k⟩
        have hxany : xs.any (fun r => decide (keyOf r = keyOf x)) = true := by
          rw [List.any_eq_true]
          refine ⟨z, hz_xs, ?_⟩
          have : keyOf z = k := by simpa using hz_k
          simp [this, hkx]
        rw [dropDupKeepLast, if_pos hxany]
        exact hs_tail
    · rw [lastWithKey, List.filter_cons_of_neg (by simpa using hkx)] at h
      have hs_tail : s ∈ dropDupKeepLast xs := ih h
      by_cases hxany : xs.any (fun r => decide (keyOf r = keyOf x)) = true
      · rw [dropDupKeepLast, if_pos hxany]
        exact hs_tail
      · rw [dropDupKeepLast, if_neg hxany]
        exact List.mem_cons_of_mem x hs_tail

/-! ### The sort key is a total preorder -/

theorem charListLe_total : ∀ l1 l2 : List Char,
    charListLe l1 l2 = true ∨ charListLe l2 l1 = true := by
  intro l1
  induction l1 with
  | nil => intro l2; left; simp [charListLe]
  | cons a as ih =>
    intro l2
    cases l2 with
    | nil => right; simp [charListLe]
    | cons b bs =>
      by_cases h1 : a.toNat < b.toNat
      · left; simp [charListLe, h1]
      · by_cases h2 : b.toNat < a.toNat
        · right; simp [charListLe, h2]
        · rcases ih bs with h | h
          · left; simp [charListLe, h1, h2, h]
          · right; simp [charListLe, h1, h2, h]

theorem charListLe_trans : ∀ l1 l2 l3 : List Char,
    charListLe l1 l2 = true → charListLe l2 l3 = true → charListLe l1 l3 = true := by
  intro l1
  induction l1 with
  | nil => intro l2 l3 _ _; simp [charListLe]
  | cons a as ih =>
    intro l2 l3 h12 h23
    cases l2 with
    | nil => simp [charListLe] at h12
    | cons b bs =>
      cases l3 with
      | nil => simp [charListLe] at h23
      | cons c cs =>
        have hab : a.toNat < b.toNat ∨ (a.toNat = b.toNat ∧ charListLe as bs = true) := by
          by_cases h1 : a.toNat < b.toNat
          · exact Or.inl h1
          · by_cases h2 : b.toNat < a.toNat
            · simp [charListLe, h1, h2] at h12
            · exact Or.inr ⟨by omega, by simpa [charListLe, h1, h2] using h12⟩
        have hbc : b.toNat < c.toNat ∨ (b.toNat = c.toNat ∧ charListLe bs cs = true) := by
          by_cases h1 : b.toNat < c.toNat
          · exact Or.inl h1
          · by_cases h2 : c.toNat < b.toNat
            · simp [charListLe, h1, h2] at h23
            · exact Or.inr ⟨by omega, by simpa [charListLe, h1, h2] using h23⟩
        rcases hab with h | ⟨heq1, hrec1⟩ <;> rcases hbc with h' | ⟨heq2, hrec2⟩
        · simp [charListLe, show a.toNat < c.toNat by omega]
        · simp [charListLe, show a.toNat < c.toNat by omega]
        · simp [charListLe, show a.toNat < c.toNat by omega]
        · have hn1 : ¬a.toNat < c.toNat := by omega
          have hn2 : ¬c.toNat < a.toNat := by omega
          simp only [charListLe, if_neg hn1, if_neg hn2]
          exact ih bs cs hrec1 hrec2

theorem rowLe_eq_true_iff (r s : Row) :
    rowLe r s = true ↔
      (parse_date r.date < parse_date s.date ∨
        (parse_date r.date = parse_date s.date ∧ tickerLe r.ticker s.ticker = true)) := by
  simp [rowLe]

theorem rowLe_total : ∀ r s : Row, rowLe r s = true ∨ rowLe s r = true := by
  intro r s
  rcases Nat.lt_trichotomy (parse_date r.date) (parse_date s.date) with h | h | h
  · exact Or.inl ((rowLe_eq_true_iff r s).mpr (Or.inl h))
  · rcases charListLe_total r.ticker.data s.ticker.data with ht | ht
    · exact Or.inl ((rowLe_eq_true_iff r s).mpr (Or.inr ⟨h, ht⟩))
    · exact Or.inr ((rowLe_eq_true_iff s r).mpr (Or.inr ⟨h.symm, ht⟩))
  · exact Or.inr ((rowLe_eq_true_iff s r).mpr (Or.inl h))

theorem rowLe_trans : ∀ r s t : Row,
    rowLe r s = true → rowLe s t = true → rowLe r t = true := by
  intro r s t h1 h2
  rcases (rowLe_eq_true_iff r s).mp h1 with ha | ⟨ha, ha2⟩ <;>
    rcases (rowLe_eq_true_iff s t).mp h2 with hb | ⟨hb, hb2⟩
  · exact (rowLe_eq_true_iff r t).mpr (Or.inl (lt_trans ha hb))
  · exact (rowLe_eq_true_iff r t).mpr (Or.inl (hb ▸ ha))
  · exact (rowLe_eq_true_iff r t).mpr (Or.inl (ha ▸ hb))
  · exact (rowLe_eq_true_iff r t).mpr
      (Or.inr ⟨ha.trans hb, charListLe_trans _ _ _ ha2 hb2⟩)

/-! ### Key uniqueness and the merged ledger -/

theorem keys_nodup_sort_values (l : List Row) (h : (l.map keyOf).Nodup) :
    ((sort_values l).map keyOf).Nodup :=
  ((isortB_perm rowLe l).map keyOf).nodup_iff.mpr h

theorem mem_sort_values (l : List Row) (r : Row) :
    r ∈ sort_values l ↔ r ∈ l :=
  (isortB_perm rowLe l).mem_iff

theorem filter_dropDup_batch_eq_nil (batch : List Row) :
    (dropDupKeepLast batch).filter
      (fun r => !(batch.any (fun s => decide (keyOf s = keyOf r)))) = [] := by
  rw [List.filter_eq_nil_iff]
  intro r hr
  have hrb : r ∈ batch := mem_dropDupKeepLast batch r hr
  have hany : batch.any (fun s => decide (keyOf s = keyOf r)) = true :=
    List.any_eq_true.mpr ⟨r, hrb, by simp⟩
  simp [hany]

theorem filter_self_batch_eq_nil (batch : List Row) :
    batch.filter (fun r => !(batch.any (fun s => decide (keyOf s = keyOf r)))) = [] := by
  rw [List.filter_eq_nil_iff]
  intro r hr
  have hany : batch.any (fun s => decide (keyOf s = keyOf r)) = true :=
    List.any_eq_true.mpr ⟨r, hr, by simp⟩
  simp [hany]

theorem merge_idem_aux (L batch : List Row) :
    sort_values (dropDupKeepLast (sort_values (dropDupKeepLast (L ++ batch)) ++ batch)) =
      sort_values (dropDupKeepLast (L ++ batch)) := by
  have hM1nodup :
      ((sort_values (dropDupKeepLast (L ++ batch))).map keyOf).Nodup :=
    keys_nodup_sort_values _ (keys_nodup_dropDupKeepLast (L ++ batch))
  rw [dropDupKeepLast_append (sort_values (dropDupKeepLast (L ++ batch))) batch,
    dropDupKeepLast_of_nodup _ hM1nodup]
  show sort_values
      ((isortB rowLe (dropDupKeepLast (L ++ batch))).filter
        (fun r => !(batch.any (fun s => decide (keyOf s = keyOf r)))) ++
        dropDupKeepLast batch) = _
  rw [filter_isortB rowLe rowLe_total rowLe_trans _ (dropDupKeepLast (L ++ batch))]
  have hD : dropDupKeepLast (L ++ batch) =
      (dropDupKeepLast L).filter
        (fun r => !(batch.any (fun s => decide (keyOf s = keyOf r)))) ++
        dropDupKeepLast batch :=
    dropDupKeepLast_append L batch
  have hDfilter : (dropDupKeepLast (L ++ batch)).filter
      (fun r => !(batch.any (fun s => decide (keyOf s = keyOf r)))) =
      (dropDupKeepLast L).filter
        (fun r => !(batch.any (fun s => decide (keyOf s = keyOf r)))) := by
    rw [hD, List.filter_append]
    rw [filter_dropDup_batch_eq_nil batch, List.append_nil]
    simp [List.filter_filter]
  rw [hDfilter]
  conv_rhs => rw [hD]
  exact isortB_isortB_append rowLe rowLe_total rowLe_trans _ _

theorem merge_idem_none_aux (batch : List Row) (h : (batch.map keyOf).Nodup) :
    sort_values (dropDupKeepLast (sort_values batch ++ batch)) = sort_values batch := by
  rw [dropDupKeepLast_append (sort_values batch) batch,
    dropDupKeepLast_of_nodup _ (keys_nodup_sort_values batch h),
    dropDupKeepLast_of_nodup batch h]
  show sort_values
      ((isortB rowLe batch).filter
        (fun r => !(batch.any (fun s => decide (keyOf s = keyOf r)))) ++ batch) = _
  rw [filter_isortB rowLe rowLe_total rowLe_trans _ batch, filter_self_batch_eq_nil batch]
  show sort_values (isortB rowLe [] ++ batch) = sort_values batch
  rfl

/-- pct_change on two present floats with nonzero previous close is the
plain percentage formula. -/
theorem pct_change_num (c p : ℚ) (hp : p ≠ 0) :
    pct_change (.num c) (.num p) = .num ((c - p) / p * 100) := by
  rw [pct_change]
  simp [isna, hp]

/-- pct_change with a zero previous close is NaN. -/
theorem pct_change_zero (c : ℚ) : pct_change (.num c) (.num 0) = .nan := by
  rw [pct_change]
  simp [isna]

theorem parse_date?_lower (s : String) (v : ℕ) (h : parse_date? s = some v) :
    datetime_min ≤ v := by
  unfold parse_date? at h
  split at h
  next ds ms ys =>
    split at h
    next hguard =>
      split at h
      next hvalid =>
        have hv := Option.some.inj h
        rcases hvalid with ⟨h1, h2, h3, h4, h5⟩
        unfold datetime_min
        omega
      next => exact absurd h (by simp)
    next => exact absurd h (by simp)
  next => exact absurd h (by simp)

/-! ### Claim theorems -/

/-- C1, as stated, is false on the code: when no prior ledger file exists
the batch is written without deduplication (the else branch of
append_unique_csv skips drop_duplicates), so a batch holding the same
(Date, Ticker) key twice persists both rows. -/
theorem C1_claim_counterexample :
    ¬ (((append_unique_csv none [rowA, rowA]).map keyOf).Nodup) := by decide

/-- C1 (amended): the merged ledger carries no duplicate (Date, Ticker)
key whenever a prior ledger exists; with no prior file the batch is only
sorted, so the persisted ledger is duplicate-free provided the batch
itself carries no duplicate key. -/
theorem C1_amended_uniqueness :
    (∀ old batch : List Row,
      ((append_unique_csv (some old) batch).map keyOf).Nodup) ∧
    (∀ batch : List Row, (batch.map keyOf).Nodup →
      ((append_unique_csv none batch).map keyOf).Nodup) := by
  constructor
  · intro old batch
    exact keys_nodup_sort_values _ (keys_nodup_dropDupKeepLast (old ++ batch))
  · intro batch h
    exact keys_nodup_sort_values _ h

/-- Witness for C1_amended_uniqueness at concrete rows. -/
theorem C1_amended_uniqueness_witness :
    ((append_unique_csv (some [rowA]) [rowA2, rowB]).map keyOf).Nodup ∧
    ((append_unique_csv none [rowA, rowB]).map keyOf).Nodup :=
  ⟨C1_amended_uniqueness.1 [rowA] [rowA2, rowB],
   C1_amended_uniqueness.2 [rowA, rowB] (by decide)⟩

/-- C2, as stated, is false on the code: with no prior ledger file a
batch with a duplicated key is persisted as-is, and the second merge then
deduplicates it, so merging the same batch twice differs from merging it
once. -/
theorem C2_claim_counterexample :
    append_unique_csv (some (append_unique_csv none [rowA, rowA])) [rowA, rowA] ≠
      append_unique_csv none [rowA, rowA] := by decide

/-- C2 (amended): the merge is idempotent whenever the first merge saw an
existing ledger file (any file contents, any batch); with no prior file
it is idempotent provided the batch has no duplicate (Date, Ticker) key. -/
theorem C2_amended_idempotence :
    (∀ old batch : List Row,
      append_unique_csv (some (append_unique_csv (some old) batch)) batch =
        append_unique_csv (some old) batch) ∧
    (∀ batch : List Row, (batch.map keyOf).Nodup →
      append_unique_csv (some (append_unique_csv none batch)) batch =
        append_unique_csv none batch) := by
  constructor
  · intro old batch
    exact merge_idem_aux old batch
  · intro batch h
    exact merge_idem_none_aux batch h

/-- Witness for C2_amended_idempotence at concrete rows. -/
theorem C2_amended_idempotence_witness :
    append_unique_csv (some (append_unique_csv (some [rowA]) [rowA2, rowB])) [rowA2, rowB] =
      append_unique_csv (some [rowA]) [rowA2, rowB] ∧
    append_unique_csv (some (append_unique_csv none [rowB])) [rowB] =
      append_unique_csv none [rowB] :=
  ⟨C2_amended_idempotence.1 [rowA] [rowA2, rowB],
   C2_amended_idempotence.2 [rowB] (by decide)⟩

/-- C3, as stated, is false on the code: when the batch carries two rows
with the key K, only the last one survives, so the batch record R2 that
the claim picks need not be in the merged ledger, and when the last batch
record equals the existing record R, the merged ledger does contain R.
Here old = [rowA], batch = [rowA2, rowA]: the merged ledger is [rowA],
which misses rowA2 and contains rowA. -/
theorem C3_claim_counterexample :
    ¬ (rowA2 ∈ append_unique_csv (some [rowA]) [rowA2, rowA] ∧
       rowA ∉ append_unique_csv (some [rowA]) [rowA2, rowA]) := by decide

/-- C3 (amended): for an existing record R and the LAST batch record R2
with the same key, the merged ledger contains exactly R2 at that key, and
does not contain R unless R equals R2. -/
theorem C3_amended_last_write_wins :
    ∀ (old batch : List Row) (R R2 : Row),
      R ∈ old → lastWithKey (keyOf R) batch = some R2 →
      (R2 ∈ append_unique_csv (some old) batch ∧
       (∀ s ∈ append_unique_csv (some old) batch, keyOf s = keyOf R → s = R2) ∧
       (R ≠ R2 → R ∉ append_unique_csv (some old) batch)) := by
  intro old batch R R2 hR hlast
  have hlast_all : lastWithKey (keyOf R) (old ++ batch) = some R2 := by
    rw [lastWithKey, List.filter_append, List.getLast?_append]
    rw [lastWithKey] at hlast
    rw [hlast]
    rfl
  have hmem_dd : R2 ∈ dropDupKeepLast (old ++ batch) :=
    lastWithKey_mem_dropDup (old ++ batch) (keyOf R) R2 hlast_all
  refine ⟨?_, ?_, ?_⟩
  · exact (mem_sort_values _ R2).mpr hmem_dd
  · intro s hs hks
    have hsdd : s ∈ dropDupKeepLast (old ++ batch) := (mem_sort_values _ s).mp hs
    have h2 := dropDup_lastWithKey (old ++ batch) s hsdd
    rw [hks, hlast_all] at h2
    exact (Option.some.inj h2).symm
  · intro hne hmem
    have hsdd : R ∈ dropDupKeepLast (old ++ batch) := (mem_sort_values _ R).mp hmem
    have h2 := dropDup_lastWithKey (old ++ batch) R hsdd
    rw [hlast_all] at h2
    exact hne (Option.some.inj h2).symm

/-- Witness for C3_amended_last_write_wins at concrete rows. -/
theorem C3_amended_last_write_wins_witness :
    rowA2 ∈ append_unique_csv (some [rowA]) [rowA2] ∧
    (∀ s ∈ append_unique_csv (some [rowA]) [rowA2], keyOf s = keyOf rowA → s = rowA2) ∧
    (rowA ≠ rowA2 → rowA ∉ append_unique_csv (some [rowA]) [rowA2]) :=
  C3_amended_last_write_wins [rowA] [rowA2] rowA rowA2 (by decide) (by decide)

/-- C4: after every merge the ledger is chained by the canonical order:
strictly increasing parsed date, with the ticker (code-point
lexicographic) breaking date ties; parsing is total, an unparsable date
falls back to datetime.min, and datetime.min is a lower bound of every
parsed date, so unparsable dates sort first. -/
theorem C4_merge_ordering :
    (∀ (old : Option (List Row)) (batch : List Row),
      (append_unique_csv old batch).Chain'
        (fun r s => parse_date r.date < parse_date s.date ∨
          (parse_date r.date = parse_date s.date ∧ tickerLe r.ticker s.ticker = true))) ∧
    (∀ s : String, parse_date? s = Option.none → parse_date s = datetime_min) ∧
    (∀ s : String, datetime_min ≤ parse_date s) := by
  refine ⟨?_, ?_, ?_⟩
  · intro old batch
    have himp : ∀ l : List Row,
        (isortB rowLe l).Chain'
          (fun r s => parse_date r.date < parse_date s.date ∨
            (parse_date r.date = parse_date s.date ∧ tickerLe r.ticker s.ticker = true)) :=
      fun l =>
        ((isortB_sorted rowLe rowLe_total rowLe_trans l).imp
          (fun {a b} hab => (rowLe_eq_true_iff a b).mp hab)).chain'
    cases old with
    | none => exact himp batch
    | some o => exact himp (dropDupKeepLast (o ++ batch))
  · intro s h
    rw [parse_date, h]
    rfl
  · intro s
    rw [parse_date]
    cases hp : parse_date? s with
    | none => simp
    | some v => simpa using parse_date?_lower s v hp

/-- Witness for C4_merge_ordering at concrete inputs. -/
theorem C4_merge_ordering_witness :
    (append_unique_csv (some [rowB]) [rowA]).Chain'
      (fun r s => parse_date r.date < parse_date s.date ∨
        (parse_date r.date = parse_date s.date ∧ tickerLe r.ticker s.ticker = true)) ∧
    parse_date "not a date" = datetime_min ∧
    datetime_min ≤ parse_date "05/03/2024" :=
  ⟨C4_merge_ordering.1 (some [rowB]) [rowA],
   C4_merge_ordering.2.1 "not a date" (by decide),
   C4_merge_ordering.2.2 "05/03/2024"⟩

/-- C5: on the concrete scenario (previous close 100, previous volume
1000; current open 101, high 103, low 99, close 102, volume 1300) the
percent change renders "2.00%", the trend label is "increase", and the
note is the full bullish sentence: day range 4 percent gives moderate
volatility, the 1.3 volume ratio gives the higher-volume phrase, and the
inclusive bias threshold classifies a change of exactly 2 as bullish. -/
theorem C5_scenario :
    pct_cell (pct_change (.num 102) (.num 100)) = "2.00%" ∧
    trend_label (pct_change (.num 102) (.num 100)) = "increase" ∧
    build_trend_note (.num 101) (.num 103) (.num 99) (.num 102) (.num 100) (.num 1300)
      (.num 1000) =
      "rebounded on higher volume with moderate intraday volatility; short-term bias is bullish." := by
  have hpc : pct_change (.num 102) (.num 100) = .num 2 := by
    rw [pct_change_num 102 100 (by norm_num)]
    norm_num
  refine ⟨?_, ?_, ?_⟩
  · rw [hpc, pct_cell]
    norm_num [fmt2, rhe, pad2]
    decide
  · rw [hpc]
    norm_num [trend_label, isna, vgt]
  · rw [build_trend_note, pct_change_num 102 100 (by norm_num)]
    norm_num [isna, truthy, toQ, vgt, vge, vlt, vle, vgeV, vleV, vmul]
    decide

/-- C6, as stated, is false on the code: main calls the mirror step with
no exception handling, so a raising sink aborts the run (the ledger write
has already happened). -/
theorem C6_claim_counterexample :
    ¬ ((main_tail none [rowA] MirrorBehavior.raises).aborted = false) := by decide

/-- C6 (amended): for a nonempty batch the merged ledger is always
persisted, unaffected by the mirror outcome; the run aborts exactly when
the mirror sink raises — absent configuration is only logged and the run
succeeds, but a raising sink propagates out of main. -/
theorem C6_amended_mirror_isolation :
    ∀ (old : Option (List Row)) (batch : List Row) (mb : MirrorBehavior),
      batch ≠ [] →
      ((main_tail old batch mb).ledger = some (append_unique_csv old batch) ∧
       ((main_tail old batch mb).aborted = true ↔ mb = MirrorBehavior.raises)) := by
  intro old batch mb hne
  cases batch with
  | nil => exact absurd rfl hne
  | cons b bs =>
    constructor
    · rfl
    · cases mb <;> simp [main_tail, append_to_google_sheet_raises]

/-- Witness for C6_amended_mirror_isolation at concrete inputs. -/
theorem C6_amended_mirror_isolation_witness :
    (main_tail none [rowA] MirrorBehavior.notConfigured).ledger =
      some (append_unique_csv none [rowA]) ∧
    ((main_tail none [rowA] MirrorBehavior.notConfigured).aborted = true ↔
      MirrorBehavior.notConfigured = MirrorBehavior.raises) :=
  C6_amended_mirror_isolation none [rowA] MirrorBehavior.notConfigured (by decide)

/-- C7, as stated, is false on the code: pd.isna also treats an absent
close as NA, so pct_change(None, 100) is NaN although the claimed
condition (previous close absent, zero or NaN, or close NaN) does not
hold there. -/
theorem C7_claim_counterexample :
    ¬ ((pct_change Val.none (Val.num 100) = Val.nan) ↔
      (Val.num 100 = Val.none ∨ Val.num 100 = Val.num 0 ∨ Val.num 100 = Val.nan ∨
        Val.none = Val.nan)) := by
  have hx : pct_change Val.none (Val.num 100) = Val.nan := by
    have hc : ((Val.num 100 == Val.none || Val.num 100 == Val.num 0) ||
        isna (Val.num 100) || isna Val.none) = true := by simp [isna]
    unfold pct_change
    rw [if_pos hc]
  intro hiff
  rcases hiff.mp hx with h | h | h | h
  · exact absurd h (by simp)
  · injection h with h2
    norm_num at h2
  · exact absurd h (by simp)
  · exact absurd h (by simp)

/-- C7 (amended): pct_change returns NaN exactly when the previous close
is absent, zero or NaN, or the close is absent or NaN; in every other
case it returns exactly (close - previousClose) / previousClose * 100. -/
theorem C7_amended_pct_change :
    ∀ close prev_close : Val,
      ((pct_change close prev_close = Val.nan) ↔
        (prev_close = Val.none ∨ prev_close = Val.num 0 ∨ prev_close = Val.nan ∨
         close = Val.none ∨ close = Val.nan)) ∧
      (∀ c p : ℚ, close = Val.num c → prev_close = Val.num p → p ≠ 0 →
        pct_change close prev_close = Val.num ((c - p) / p * 100)) := by
  intro close prev_close
  constructor
  · cases close with
    | none => cases prev_close <;> simp [pct_change, isna]
    | nan => cases prev_close <;> simp [pct_change, isna]
    | num c =>
      cases prev_close with
      | none => simp [pct_change, isna]
      | nan => simp [pct_change, isna]
      | num p =>
        by_cases hp : p = 0
        · subst hp
          rw [pct_change_zero]
          simp
        · rw [pct_change_num c p hp]
          simp [hp]
  · intro c p hc hp hpz
    subst hc
    subst hp
    exact pct_change_num c p hpz

/-- Witness for C7_amended_pct_change at concrete inputs. -/
theorem C7_amended_pct_change_witness :
    pct_change (Val.num 102) (Val.num 100) = Val.num ((102 - 100) / 100 * 100) :=
  (C7_amended_pct_change (Val.num 102) (Val.num 100)).2 102 100 rfl rfl (by norm_num)

/-- C8: trend_label is empty on NaN, "increase" on positive values,
"decrease" on nonpositive ones (zero included), and never anything
else. -/
theorem C8_trend_label :
    trend_label Val.nan = "" ∧
    (∀ q : ℚ, 0 < q → trend_label (Val.num q) = "increase") ∧
    (∀ q : ℚ, q ≤ 0 → trend_label (Val.num q) = "decrease") ∧
    trend_label (Val.num 0) = "decrease" ∧
    (∀ p : Val, trend_label p = "" ∨ trend_label p = "increase" ∨
      trend_label p = "decrease") := by
  refine ⟨rfl, ?_, ?_, ?_, ?_⟩
  · intro q hq
    simp [trend_label, isna, vgt, hq]
  · intro q hq
    simp [trend_label, isna, vgt, not_lt.mpr hq]
  · simp [trend_label, isna, vgt]
  · intro p
    cases p with
    | none => exact Or.inl rfl
    | nan => exact Or.inl rfl
    | num q =>
      by_cases h : 0 < q
      · exact Or.inr (Or.inl (by simp [trend_label, isna, vgt, h]))
      · exact Or.inr (Or.inr (by simp [trend_label, isna, vgt, h]))

/-- Witness for C8_trend_label at concrete inputs. -/
theorem C8_trend_label_witness :
    trend_label (Val.num 5) = "increase" ∧ trend_label (Val.num 0) = "decrease" :=
  ⟨C8_trend_label.2.1 5 (by norm_num), C8_trend_label.2.2.1 0 le_rfl⟩

/-- C9: fmt_volume fails closed on absent and NaN volumes and otherwise
picks the scale tier with inclusive lower bounds — at least 1e9 renders
in billions, else at least 1e6 in millions, else at least 1e3 in
thousands, else the truncated integer — and the boundary value 1000000
renders "1.00m". -/
theorem C9_fmt_volume :
    fmt_volume Val.none = "" ∧
    fmt_volume Val.nan = "" ∧
    (∀ q : ℚ,
      (1000000000 ≤ q → fmt_volume (Val.num q) = fmt2 (q / 1000000000) ++ "b") ∧
      (1000000 ≤ q → q < 1000000000 → fmt_volume (Val.num q) = fmt2 (q / 1000000) ++ "m") ∧
      (1000 ≤ q → q < 1000000 → fmt_volume (Val.num q) = fmt2 (q / 1000) ++ "k") ∧
      (q < 1000 → fmt_volume (Val.num q) = toString (truncInt q))) ∧
    fmt_volume (Val.num 1000000) = "1.00m" := by
  refine ⟨rfl, rfl, ?_, ?_⟩
  · intro q
    refine ⟨?_, ?_, ?_, ?_⟩
    · intro h1
      simp only [fmt_volume]
      rw [if_pos h1]
    · intro h1 h2
      simp only [fmt_volume]
      rw [if_neg (not_le.mpr h2), if_pos h1]
    · intro h1 h2
      simp only [fmt_volume]
      rw [if_neg (not_le.mpr (h2.trans (by norm_num))), if_neg (not_le.mpr h2), if_pos h1]
    · intro h1
      simp only [fmt_volume]
      rw [if_neg (not_le.mpr (h1.trans (by norm_num))),
        if_neg (not_le.mpr (h1.trans (by norm_num))), if_neg (not_le.mpr h1)]
  · simp only [fmt_volume]
    rw [if_neg (by norm_num), if_pos (by norm_num)]
    norm_num [fmt2, rhe, pad2]
    decide

/-- Witness for C9_fmt_volume at concrete inputs. -/
theorem C9_fmt_volume_witness :
    fmt_volume (Val.num 2000000000) = fmt2 (2000000000 / 1000000000) ++ "b" ∧
    fmt_volume (Val.num 999) = toString (truncInt 999) :=
  ⟨(C9_fmt_volume.2.2.1 2000000000).1 (by norm_num),
   (C9_fmt_volume.2.2.1 999).2.2.2 (by norm_num)⟩

/-- C10: with all five prices present but a zero previous close and an
absent previous volume, build_trend_note still returns the nonempty
closed-flat, low-volatility, neutral-bias sentence (the day range is
forced to 0 and the NaN percent change falls through every strict
comparison), even though pct_change is NaN and trend_label is empty on
the same inputs. -/
theorem C10_zero_prev_close :
    ∀ (o h l c : ℚ) (vol : Val),
      build_trend_note (.num o) (.num h) (.num l) (.num c) (.num 0) vol .none =
        "closed flat with low intraday volatility; short-term bias is neutral." ∧
      pct_change (.num c) (.num 0) = .nan ∧
      trend_label (pct_change (.num c) (.num 0)) = "" := by
  intro o h l c vol
  refine ⟨rfl, pct_change_zero c, ?_⟩
  rw [pct_change_zero c]
  rfl

end StockLogger
